import Mathlib

/-!
Verification of `scripts/download_c2db.py`, a batch downloader for the C2DB
database.  The script crawls a paginated catalog to collect material slugs,
downloads a JSON and a CIF file per slug (skipping files already on disk),
and finally writes a manifest.

Shallow embedding conventions:
* page/file contents are `String`s; the two regular expressions
  `MATERIAL_PATH_RE` and `PAGE_RE` are modelled as explicit left-to-right
  scanners over `List Char` (Python's `\s` and `\d` are modelled by their
  ASCII members, which is exact for the catalog's ASCII pages);
* the network is an oracle `Env.fetchResult : String → Option String`
  (`none` models a `TransportError`, i.e. `response.raise_for_status()`
  throwing, which the script never catches);
* the filesystem is the set (list) of paths existing below the output
  directory; all paths are kept relative to `out_dir`, which is fixed for a
  run, so `destination.relative_to(out_dir)` is the path itself;
* observable side effects (HTTP GETs, file writes, `time.sleep`, the final
  manifest write) are recorded in an event trace;
* an uncaught `TransportError` is an `Except.error` carrying the failing URL
  together with the state (disk contents and trace) at the moment of failure;
* the scanners use fuel (initialised to the input length; every step consumes
  at least one character, so the fuel never runs out) to stay structurally
  recursive and hence computable by `decide`/`rfl`.
-/

/-! ## Definitions: the embedded program -/

def isPySpace (c : Char) : Bool :=
  c.toNat = 32 || c.toNat = 9 || c.toNat = 10 || c.toNat = 13 ||
  c.toNat = 11 || c.toNat = 12

def isSlugChar (c : Char) : Bool :=
  !(isPySpace c || c.toNat = 34 || c.toNat = 39)

def isAsciiDigit (c : Char) : Bool :=
  48 ≤ c.toNat && c.toNat ≤ 57

def natOfDigits (ds : List Char) : Nat :=
  ds.foldl (fun n c => 10 * n + (c.toNat - 48)) 0

def leadsWith : List Char → List Char → Bool
  | [], _ => true
  | _ :: _, [] => false
  | p :: ps, c :: cs => p == c && leadsWith ps cs

def takeSlug : List Char → List Char × List Char
  | [] => ([], [])
  | c :: rest =>
    if isSlugChar c then
      let p := takeSlug rest
      (c :: p.1, p.2)
    else ([], c :: rest)

def takeDigits : List Char → List Char × List Char
  | [] => ([], [])
  | c :: rest =>
    if isAsciiDigit c then
      let p := takeDigits rest
      (c :: p.1, p.2)
    else ([], c :: rest)

def hrefMarkerChars : List Char := "href=/material/".toList

def pageMarkerHead : List Char := "/table?sid=".toList

def pageMarkerMid : List Char := "&page=".toList

def scanSlugs : Nat → List Char → List String
  | 0, _ => []
  | _, [] => []
  | Nat.succ fuel, c :: rest =>
    if leadsWith hrefMarkerChars (c :: rest) then
      let p := takeSlug ((c :: rest).drop hrefMarkerChars.length)
      if p.1.isEmpty then scanSlugs fuel rest
      else String.mk p.1 :: scanSlugs fuel p.2
    else scanSlugs fuel rest

def rawSlugMatches (l : List Char) : List String := scanSlugs l.length l

def scanPages : Nat → List Char → List Nat
  | 0, _ => []
  | _, [] => []
  | Nat.succ fuel, c :: rest =>
    if leadsWith pageMarkerHead (c :: rest) then
      let p1 := takeDigits ((c :: rest).drop pageMarkerHead.length)
      if p1.1.isEmpty then scanPages fuel rest
      else if leadsWith pageMarkerMid p1.2 then
        let p2 := takeDigits (p1.2.drop pageMarkerMid.length)
        if p2.1.isEmpty then scanPages fuel rest
        else natOfDigits p2.1 :: scanPages fuel p2.2
      else scanPages fuel rest
    else scanPages fuel rest

def rawPageMatches (l : List Char) : List Nat := scanPages l.length l

def maxOfList (x : Nat) (xs : List Nat) : Nat := xs.foldl Nat.max x

def extract_last_page (html : String) (fallback : Nat) : Nat :=
  match rawPageMatches html.toList with
  | [] => fallback
  | p :: ps => maxOfList p ps

def addSlugs : List String → List String → List String → List String × List String
  | [], slugs, seen => (slugs, seen)
  | slug :: rest, slugs, seen =>
    if slug ∈ seen then addSlugs rest slugs seen
    else addSlugs rest (slugs ++ [slug]) (slug :: seen)

def extract_material_slugs (html : String) : List String :=
  (addSlugs (rawSlugMatches html.toList) [] []).1

def dedupSeen : List String → List String → List String
  | [], _ => []
  | x :: xs, seen =>
    if x ∈ seen then dedupSeen xs seen else x :: dedupSeen xs (x :: seen)

inductive Ev : Type where
  | fetchUrl : String → Ev
  | write : String → Ev
  | sleep : Ev
  | writeManifest : Ev
deriving DecidableEq

structure St : Type where
  fs : List String
  events : List Ev
deriving DecidableEq

structure Env : Type where
  fetchResult : String → Option String

def BASE_URL : String := "https://c2db.fysik.dtu.dk"

def TABLE_ENDPOINT : String := BASE_URL ++ "/table"

def DOWNLOAD_TYPES : List (String × String) := [("json", "json"), ("cif", "cif")]

def table_page_url (sid : Nat) (page : Nat) : String :=
  TABLE_ENDPOINT ++ "?sid=" ++ toString sid ++ "&page=" ++ toString page

def material_download_url (slug : String) (kind : String) : String :=
  BASE_URL ++ "/material/" ++ slug ++ "/download/" ++ kind

def material_file_path (slug : String) (suffix : String) : String :=
  slug ++ "/" ++ slug ++ "." ++ suffix

def fetch (env : Env) (s : St) (url : String) :
    Except (String × St) (String × St) :=
  let s2 : St := { s with events := s.events ++ [Ev.fetchUrl url] }
  match env.fetchResult url with
  | none => Except.error (url, s2)
  | some body => Except.ok (body, s2)

def sleepPause (s : St) : St :=
  { s with events := s.events ++ [Ev.sleep] }

def download_file (env : Env) (s : St) (url : String) (dest : String) :
    Except (String × St) St :=
  if dest ∈ s.fs then Except.ok s
  else
    match fetch env s url with
    | Except.error e => Except.error e
    | Except.ok (_, s2) =>
        Except.ok (sleepPause { s2 with
          fs := dest :: s2.fs,
          events := s2.events ++ [Ev.write dest] })

def download_kinds (env : Env) (slug : String) :
    List (String × String) → St → List (String × String) →
    Except (String × St) (List (String × String) × St)
  | [], s, entry => Except.ok (entry, s)
  | (kind, suffix) :: rest, s, entry =>
    match download_file env s (material_download_url slug kind)
        (material_file_path slug suffix) with
    | Except.error e => Except.error e
    | Except.ok s2 =>
        download_kinds env slug rest s2
          (entry ++ [(kind, material_file_path slug suffix)])

def download_material (env : Env) (s : St) (slug : String) :
    Except (String × St) (List (String × String) × St) :=
  download_kinds env slug DOWNLOAD_TYPES s [("slug", slug)]

def crawl_loop (env : Env) (sid : Nat) :
    List Nat → St → List String → List String →
    Except (String × St) (List String × List String × St)
  | [], s, slugs, seen => Except.ok (slugs, seen, s)
  | page :: rest, s, slugs, seen =>
    match fetch env s (table_page_url sid page) with
    | Except.error e => Except.error e
    | Except.ok (html, s2) =>
        let p := addSlugs (extract_material_slugs html) slugs seen
        crawl_loop env sid rest (sleepPause s2) p.1 p.2

def collect_slugs (env : Env) (sid : Nat) (s : St) :
    Except (String × St) (List String × St) :=
  match fetch env s (table_page_url sid 0) with
  | Except.error e => Except.error e
  | Except.ok (html, s1) =>
    let last_page := extract_last_page html 0
    let p := addSlugs (extract_material_slugs html) [] []
    match crawl_loop env sid (List.range' 1 last_page) s1 p.1 p.2 with
    | Except.error e => Except.error e
    | Except.ok (slugs, _, s2) => Except.ok (slugs, s2)

def download_loop (env : Env) :
    List String → St → List (List (String × String)) →
    Except (String × St) (List (List (String × String)) × St)
  | [], s, manifest => Except.ok (manifest, s)
  | slug :: rest, s, manifest =>
    match download_material env s slug with
    | Except.error e => Except.error e
    | Except.ok (entry, s2) => download_loop env rest s2 (manifest ++ [entry])

def main_run (env : Env) (sid : Nat) (max_materials : Option Nat)
    (fs0 : List String) :
    Except (String × St) (List (List (String × String)) × St) :=
  match collect_slugs env sid { fs := fs0, events := [] } with
  | Except.error e => Except.error e
  | Except.ok (slugs, s1) =>
    let slugs2 := match max_materials with
      | some n => slugs.take n
      | none => slugs
    match download_loop env slugs2 s1 [] with
    | Except.error e => Except.error e
    | Except.ok (manifest, s2) =>
        Except.ok (manifest,
          { s2 with events := s2.events ++ [Ev.writeManifest] })

def material_manifest_entry (slug : String) : List (String × String) :=
  [("slug", slug),
   ("json", material_file_path slug "json"),
   ("cif", material_file_path slug "cif")]

def writesOf (evs : List Ev) : List String :=
  evs.filterMap fun e =>
    match e with
    | Ev.write p => some p
    | _ => none

def collectedSlugs (contents : Nat → String) : List String :=
  dedupSeen (((List.range (extract_last_page (contents 0) 0 + 1)).map
    (fun p => extract_material_slugs (contents p))).flatten) []

def crawlTrace (sid : Nat) (last_page : Nat) : List Ev :=
  Ev.fetchUrl (table_page_url sid 0) ::
    ((List.range' 1 last_page).map fun p =>
      [Ev.fetchUrl (table_page_url sid p), Ev.sleep]).flatten

def pagesCat (contents : Nat → String) : List String :=
  ((List.range (extract_last_page (contents 0) 0 + 1)).map
    (fun p => extract_material_slugs (contents p))).flatten

def countSleeps : List Ev → Nat
  | [] => 0
  | Ev.sleep :: rest => countSleeps rest + 1
  | _ :: rest => countSleeps rest

def cPage : String :=
  "/table?sid=9&page=1 href=/material/1A href=/material/2B href=/material/1A"

def envConst : Env := ⟨fun _ => some cPage⟩

def envDown : Env := ⟨fun _ => none⟩

def cSmall : String := "href=/material/1A href=/material/2B"

def envSmall : Env := ⟨fun _ => some cSmall⟩

def envJsonOnly : Env :=
  ⟨fun u => if u = material_download_url "1A" "cif" then none else some "x"⟩

def fsBoth : List String :=
  [material_file_path "1A" "json", material_file_path "1A" "cif"]

/-! ## Theorems -/

theorem addSlugs_fst (l : List String) :
    ∀ slugs seen, (addSlugs l slugs seen).1 = slugs ++ dedupSeen l seen := by
  induction l with
  | nil => intro slugs seen; simp [addSlugs, dedupSeen]
  | cons x xs ih =>
    intro slugs seen
    by_cases hx : x ∈ seen
    · simp [addSlugs, dedupSeen, hx, ih]
    · simp [addSlugs, dedupSeen, hx, ih]

theorem addSlugs_snd_mem (l : List String) :
    ∀ slugs seen x, x ∈ (addSlugs l slugs seen).2 ↔ x ∈ l ∨ x ∈ seen := by
  induction l with
  | nil => intro slugs seen x; simp [addSlugs]
  | cons y ys ih =>
    intro slugs seen x
    by_cases hy : y ∈ seen
    · simp only [addSlugs, if_pos hy, ih]
      constructor
      · intro h; rcases h with h | h
        · exact Or.inl (List.mem_cons_of_mem _ h)
        · exact Or.inr h
      · intro h; rcases h with h | h
        · rcases List.mem_cons.mp h with rfl | h
          · exact Or.inr hy
          · exact Or.inl h
        · exact Or.inr h
    · simp only [addSlugs, if_neg hy, ih, List.mem_cons]
      tauto

theorem dedupSeen_congr (l : List String) :
    ∀ s1 s2, (∀ x, x ∈ s1 ↔ x ∈ s2) → dedupSeen l s1 = dedupSeen l s2 := by
  induction l with
  | nil => intro s1 s2 _; rfl
  | cons x xs ih =>
    intro s1 s2 h
    by_cases hx : x ∈ s1
    · simp only [dedupSeen, if_pos hx, if_pos ((h x).mp hx)]
      exact ih s1 s2 h
    · have hx2 : x ∉ s2 := fun hc => hx ((h x).mpr hc)
      simp only [dedupSeen, if_neg hx, if_neg hx2]
      refine congrArg _ (ih _ _ ?_)
      intro y
      simp only [List.mem_cons]
      exact or_congr Iff.rfl (h y)

theorem dedupSeen_append (l1 : List String) :
    ∀ l2 seen, dedupSeen (l1 ++ l2) seen =
      dedupSeen l1 seen ++ dedupSeen l2 (l1 ++ seen) := by
  induction l1 with
  | nil => intro l2 seen; simp [dedupSeen]
  | cons x xs ih =>
    intro l2 seen
    by_cases hx : x ∈ seen
    · have h1 : dedupSeen (x :: (xs ++ l2)) seen = dedupSeen (xs ++ l2) seen := by
        simp [dedupSeen, hx]
      have h2 : dedupSeen (x :: xs) seen = dedupSeen xs seen := by
        simp [dedupSeen, hx]
      have h3 : dedupSeen l2 (xs ++ seen) = dedupSeen l2 (x :: xs ++ seen) := by
        refine dedupSeen_congr _ _ _ ?_
        intro y
        simp only [List.cons_append, List.mem_append, List.mem_cons]
        constructor
        · intro h; exact Or.inr h
        · rintro (rfl | h)
          · exact Or.inr hx
          · exact h
      rw [List.cons_append, h1, ih, h2, h3]
    · have h1 : dedupSeen (x :: (xs ++ l2)) seen =
          x :: dedupSeen (xs ++ l2) (x :: seen) := by
        simp [dedupSeen, hx]
      have h2 : dedupSeen (x :: xs) seen = x :: dedupSeen xs (x :: seen) := by
        simp [dedupSeen, hx]
      have h3 : dedupSeen l2 (xs ++ x :: seen) = dedupSeen l2 (x :: xs ++ seen) := by
        refine dedupSeen_congr _ _ _ ?_
        intro y
        simp only [List.cons_append, List.mem_append, List.mem_cons]
        tauto
      rw [List.cons_append, h1, ih, h2, h3]
      simp

theorem dedupSeen_mem (l : List String) :
    ∀ seen y, y ∈ dedupSeen l seen ↔ y ∈ l ∧ y ∉ seen := by
  induction l with
  | nil => intro seen y; simp [dedupSeen]
  | cons x xs ih =>
    intro seen y
    by_cases hx : x ∈ seen
    · have h1 : dedupSeen (x :: xs) seen = dedupSeen xs seen := by
        simp [dedupSeen, hx]
      rw [h1, ih]
      constructor
      · rintro ⟨hy, hn⟩; exact ⟨List.mem_cons_of_mem _ hy, hn⟩
      · rintro ⟨hy, hn⟩
        rcases List.mem_cons.mp hy with rfl | hy
        · exact absurd hx hn
        · exact ⟨hy, hn⟩
    · have h1 : dedupSeen (x :: xs) seen = x :: dedupSeen xs (x :: seen) := by
        simp [dedupSeen, hx]
      rw [h1]
      constructor
      · intro h
        rcases List.mem_cons.mp h with rfl | h
        · exact ⟨List.mem_cons_self _ _, hx⟩
        · have h2 := (ih (x :: seen) y).mp h

          exact ⟨List.mem_cons_of_mem _ h2.1,
            fun hc => h2.2 (List.mem_cons_of_mem _ hc)⟩
      · rintro ⟨hy, hn⟩
        rcases List.mem_cons.mp hy with rfl | hy
        · exact List.mem_cons_self _ _
        · by_cases hxy : y = x
          · subst hxy; exact List.mem_cons_self _ _
          · refine List.mem_cons_of_mem _ ((ih (x :: seen) y).mpr ⟨hy, ?_⟩)
            intro hc
            rcases List.mem_cons.mp hc with h | h
            · exact hxy h
            · exact hn h

theorem dedupSeen_sublist (l : List String) :
    ∀ seen, (dedupSeen l seen).Sublist l := by
  induction l with
  | nil => intro seen; simp [dedupSeen]
  | cons x xs ih =>
    intro seen
    by_cases hx : x ∈ seen
    · simp only [dedupSeen, if_pos hx]
      exact (ih seen).cons x
    · simp only [dedupSeen, if_neg hx]
      exact (ih (x :: seen)).cons₂ x

theorem dedupSeen_nodup (l : List String) :
    ∀ seen, (dedupSeen l seen).Nodup := by
  induction l with
  | nil => intro seen; simp [dedupSeen]
  | cons x xs ih =>
    intro seen
    by_cases hx : x ∈ seen
    · simp only [dedupSeen, if_pos hx]; exact ih seen
    · simp only [dedupSeen, if_neg hx]
      refine List.nodup_cons.mpr ⟨?_, ih (x :: seen)⟩
      intro hc
      exact ((dedupSeen_mem xs (x :: seen) x).mp hc).2 (List.mem_cons_self x seen)

theorem writesOf_append (a b : List Ev) :
    writesOf (a ++ b) = writesOf a ++ writesOf b := by
  simp [writesOf, List.filterMap_append]

theorem material_file_path_json_ne_cif (slug : String) :
    material_file_path slug "json" ≠ material_file_path slug "cif" := by
  intro h
  have hlen := congrArg String.length h
  simp only [material_file_path, String.length_append] at hlen
  have h1 : "json".length = 4 := rfl
  have h2 : "cif".length = 3 := rfl
  rw [h1, h2] at hlen
  omega

theorem download_file_skip (env : Env) (s : St) (url dest : String)
    (h : dest ∈ s.fs) : download_file env s url dest = Except.ok s := by
  simp [download_file, h]

theorem download_file_fresh (env : Env) (s : St) (url dest : String) (body : String)
    (h : dest ∉ s.fs) (hf : env.fetchResult url = some body) :
    download_file env s url dest = Except.ok
      { fs := dest :: s.fs,
        events := s.events ++ [Ev.fetchUrl url, Ev.write dest, Ev.sleep] } := by
  simp [download_file, h, fetch, hf, sleepPause]

theorem download_file_fail (env : Env) (s : St) (url dest : String)
    (h : dest ∉ s.fs) (hf : env.fetchResult url = none) :
    download_file env s url dest = Except.error
      (url, { fs := s.fs, events := s.events ++ [Ev.fetchUrl url] }) := by
  simp [download_file, h, fetch, hf]

theorem download_file_ok_inv (env : Env) (s : St) (url dest : String) (s2 : St)
    (h : download_file env s url dest = Except.ok s2) :
    dest ∈ s2.fs ∧ (∀ x, x ∈ s.fs → x ∈ s2.fs) ∧
    ∃ extra, s2.events = s.events ++ extra ∧
      ∀ e, e ∈ extra → e = Ev.fetchUrl url ∨ e = Ev.write dest ∨ e = Ev.sleep := by
  by_cases hd : dest ∈ s.fs
  · rw [download_file_skip env s url dest hd] at h
    cases h
    exact ⟨hd, fun x hx => hx, [], by simp⟩
  · cases hf : env.fetchResult url with
    | none => rw [download_file_fail env s url dest hd hf] at h; cases h
    | some body =>
      rw [download_file_fresh env s url dest body hd hf] at h
      cases h
      refine ⟨List.mem_cons_self _ _, fun x hx => List.mem_cons_of_mem _ hx,
        [Ev.fetchUrl url, Ev.write dest, Ev.sleep], rfl, ?_⟩
      intro e he
      simp only [List.mem_cons, List.not_mem_nil, or_false] at he
      rcases he with rfl | rfl | rfl
      · exact Or.inl rfl
      · exact Or.inr (Or.inl rfl)
      · exact Or.inr (Or.inr rfl)

theorem download_file_error_inv (env : Env) (s : St) (url dest : String)
    (u : String) (s2 : St)
    (h : download_file env s url dest = Except.error (u, s2)) :
    u = url ∧ s2.fs = s.fs ∧ s2.events = s.events ++ [Ev.fetchUrl url] := by
  by_cases hd : dest ∈ s.fs
  · rw [download_file_skip env s url dest hd] at h; cases h
  · cases hf : env.fetchResult url with
    | none =>
      rw [download_file_fail env s url dest hd hf] at h
      cases h
      exact ⟨rfl, rfl, rfl⟩
    | some body =>
      rw [download_file_fresh env s url dest body hd hf] at h
      cases h

theorem download_kinds_ok_inv (env : Env) (slug : String) :
    ∀ kinds s entry entry2 s2,
      download_kinds env slug kinds s entry = Except.ok (entry2, s2) →
      entry2 = entry ++ kinds.map (fun ks => (ks.1, material_file_path slug ks.2)) ∧
      (∀ x, x ∈ s.fs → x ∈ s2.fs) ∧
      (∀ ks, ks ∈ kinds → material_file_path slug ks.2 ∈ s2.fs) ∧
      ∃ extra, s2.events = s.events ++ extra ∧
        ∀ e, e ∈ extra →
          (∃ ks, ks ∈ kinds ∧
            (e = Ev.fetchUrl (material_download_url slug ks.1) ∨
             e = Ev.write (material_file_path slug ks.2))) ∨ e = Ev.sleep := by
  intro kinds
  induction kinds with
  | nil =>
    intro s entry entry2 s2 h
    cases h
    exact ⟨by simp, fun x hx => hx, by simp, [], by simp⟩
  | cons ks rest ih =>
    intro s entry entry2 s2 h
    rcases ks with ⟨kind, suffix⟩
    simp only [download_kinds] at h
    cases hdf : download_file env s (material_download_url slug kind)
        (material_file_path slug suffix) with
    | error e => rw [hdf] at h; cases h
    | ok s1 =>
      rw [hdf] at h
      obtain ⟨hmem, hmono, hextra⟩ :=
        download_file_ok_inv env s _ _ s1 hdf
      obtain ⟨hentry, hmono2, hfiles, extra2, hev2, hchar2⟩ := ih s1 _ _ _ h
      obtain ⟨extra1, hev1, hchar1⟩ := hextra
      refine ⟨by simpa using hentry, fun x hx => hmono2 x (hmono x hx), ?_, ?_⟩
      · intro ks2 hks2
        rcases List.mem_cons.mp hks2 with rfl | hks2
        · exact hmono2 _ hmem
        · exact hfiles ks2 hks2
      · refine ⟨extra1 ++ extra2, by rw [hev2, hev1, List.append_assoc], ?_⟩
        intro e he
        rcases List.mem_append.mp he with he | he
        · rcases hchar1 e he with rfl | rfl | rfl
          · exact Or.inl ⟨(kind, suffix), List.mem_cons_self _ _, Or.inl rfl⟩
          · exact Or.inl ⟨(kind, suffix), List.mem_cons_self _ _, Or.inr rfl⟩
          · exact Or.inr rfl
        · rcases hchar2 e he with ⟨ks2, hks2, hor⟩ | rfl
          · exact Or.inl ⟨ks2, List.mem_cons_of_mem _ hks2, hor⟩
          · exact Or.inr rfl

theorem download_kinds_error_inv (env : Env) (slug : String) :
    ∀ kinds s entry u s2,
      download_kinds env slug kinds s entry = Except.error (u, s2) →
      (∃ ks, ks ∈ kinds ∧ u = material_download_url slug ks.1) ∧
      (∀ x, x ∈ s.fs → x ∈ s2.fs) ∧
      ∃ extra, s2.events = s.events ++ extra ∧
        ∀ e, e ∈ extra →
          (∃ ks, ks ∈ kinds ∧
            (e = Ev.fetchUrl (material_download_url slug ks.1) ∨
             e = Ev.write (material_file_path slug ks.2))) ∨ e = Ev.sleep := by
  intro kinds
  induction kinds with
  | nil => intro s entry u s2 h; cases h
  | cons ks rest ih =>
    intro s entry u s2 h
    rcases ks with ⟨kind, suffix⟩
    simp only [download_kinds] at h
    cases hdf : download_file env s (material_download_url slug kind)
        (material_file_path slug suffix) with
    | error e =>
      rw [hdf] at h
      cases h
      obtain ⟨hu, hfs, hev⟩ := download_file_error_inv env s _ _ u s2 hdf
      refine ⟨⟨(kind, suffix), List.mem_cons_self _ _, hu⟩, ?_, ?_⟩
      · intro x hx; rw [hfs]; exact hx
      · refine ⟨[Ev.fetchUrl (material_download_url slug kind)], hev, ?_⟩
        intro e he
        simp only [List.mem_singleton] at he
        subst he
        exact Or.inl ⟨(kind, suffix), List.mem_cons_self _ _, Or.inl rfl⟩
    | ok s1 =>
      rw [hdf] at h
      obtain ⟨hmem, hmono, extra1, hev1, hchar1⟩ :=
        download_file_ok_inv env s _ _ s1 hdf
      obtain ⟨hks, hmono2, extra2, hev2, hchar2⟩ := ih s1 _ u s2 h
      obtain ⟨ks2, hks2, hu⟩ := hks
      refine ⟨⟨ks2, List.mem_cons_of_mem _ hks2, hu⟩,
        fun x hx => hmono2 x (hmono x hx), ?_⟩
      refine ⟨extra1 ++ extra2, by rw [hev2, hev1, List.append_assoc], ?_⟩
      intro e he
      rcases List.mem_append.mp he with he | he
      · rcases hchar1 e he with rfl | rfl | rfl
        · exact Or.inl ⟨(kind, suffix), List.mem_cons_self _ _, Or.inl rfl⟩
        · exact Or.inl ⟨(kind, suffix), List.mem_cons_self _ _, Or.inr rfl⟩
        · exact Or.inr rfl
      · rcases hchar2 e he with ⟨ks3, hks3, hor⟩ | rfl
        · exact Or.inl ⟨ks3, List.mem_cons_of_mem _ hks3, hor⟩
        · exact Or.inr rfl

theorem range_succ_head (n : Nat) : List.range (n + 1) = 0 :: List.range' 1 n := by
  rw [List.range_eq_range']
  rfl

theorem nat_max_choice (x y : Nat) : Nat.max x y = x ∨ Nat.max x y = y := by
  rcases Nat.le_total x y with h | h
  · exact Or.inr (Nat.max_eq_right h)
  · exact Or.inl (Nat.max_eq_left h)

theorem maxOfList_mem (xs : List Nat) : ∀ x, maxOfList x xs ∈ x :: xs := by
  induction xs with
  | nil => intro x; simp [maxOfList]
  | cons y ys ih =>
    intro x
    have hstep : maxOfList x (y :: ys) = maxOfList (Nat.max x y) ys := rfl
    rw [hstep]
    have h := ih (Nat.max x y)
    rcases List.mem_cons.mp h with h2 | h2
    · rw [h2]
      rcases nat_max_choice x y with hm | hm <;> rw [hm]
      · exact List.mem_cons_self _ _
      · exact List.mem_cons_of_mem _ (List.mem_cons_self _ _)
    · exact List.mem_cons_of_mem _ (List.mem_cons_of_mem _ h2)

theorem le_maxOfList (xs : List Nat) : ∀ x m, m ∈ x :: xs → m ≤ maxOfList x xs := by
  induction xs with
  | nil =>
    intro x m hm
    rcases List.mem_cons.mp hm with rfl | hm
    · exact Nat.le_refl _
    · cases hm
  | cons y ys ih =>
    intro x m hm
    have hstep : maxOfList x (y :: ys) = maxOfList (Nat.max x y) ys := rfl
    rw [hstep]
    rcases List.mem_cons.mp hm with rfl | hm
    · exact Nat.le_trans (Nat.le_max_left m y)
        (ih (Nat.max m y) _ (List.mem_cons_self _ _))
    · rcases List.mem_cons.mp hm with rfl | hm
      · exact Nat.le_trans (Nat.le_max_right x m)
          (ih (Nat.max x m) _ (List.mem_cons_self _ _))
      · exact ih (Nat.max x y) m (List.mem_cons_of_mem _ hm)

theorem crawl_loop_spec (env : Env) (sid : Nat) (contents : Nat → String) :
    ∀ pl s slugs seen seenSpec,
      (∀ x, x ∈ seen ↔ x ∈ seenSpec) →
      (∀ p, p ∈ pl → env.fetchResult (table_page_url sid p) = some (contents p)) →
      ∃ seen2, crawl_loop env sid pl s slugs seen = Except.ok
        (slugs ++ dedupSeen
            ((pl.map fun p => extract_material_slugs (contents p)).flatten) seenSpec,
         seen2,
         { fs := s.fs,
           events := s.events ++
             (pl.map fun p =>
               [Ev.fetchUrl (table_page_url sid p), Ev.sleep]).flatten }) := by
  intro pl
  induction pl with
  | nil =>
    intro s slugs seen seenSpec hseen hf
    exact ⟨seen, by simp [crawl_loop, dedupSeen]⟩
  | cons page rest ih =>
    intro s slugs seen seenSpec hseen hf
    have hp := hf page (List.mem_cons_self _ _)
    have hstep : crawl_loop env sid (page :: rest) s slugs seen =
        crawl_loop env sid rest
          { fs := s.fs,
            events := s.events ++
              [Ev.fetchUrl (table_page_url sid page), Ev.sleep] }
          (addSlugs (extract_material_slugs (contents page)) slugs seen).1
          (addSlugs (extract_material_slugs (contents page)) slugs seen).2 := by
      simp [crawl_loop, fetch, hp, sleepPause]
    have hfst : (addSlugs (extract_material_slugs (contents page)) slugs seen).1 =
        slugs ++ dedupSeen (extract_material_slugs (contents page)) seenSpec := by
      rw [addSlugs_fst]
      exact congrArg _ (dedupSeen_congr _ _ _ hseen)
    have hseen2 : ∀ x,
        x ∈ (addSlugs (extract_material_slugs (contents page)) slugs seen).2 ↔
        x ∈ extract_material_slugs (contents page) ++ seenSpec := by
      intro x
      rw [addSlugs_snd_mem, List.mem_append]
      exact or_congr Iff.rfl (hseen x)
    have hfr : ∀ p, p ∈ rest → env.fetchResult (table_page_url sid p) =
        some (contents p) :=
      fun p hp2 => hf p (List.mem_cons_of_mem _ hp2)
    obtain ⟨seen2, hrec⟩ := ih
      { fs := s.fs,
        events := s.events ++ [Ev.fetchUrl (table_page_url sid page), Ev.sleep] }
      (slugs ++ dedupSeen (extract_material_slugs (contents page)) seenSpec)
      (addSlugs (extract_material_slugs (contents page)) slugs seen).2
      (extract_material_slugs (contents page) ++ seenSpec)
      hseen2 hfr
    refine ⟨seen2, ?_⟩
    rw [hstep, hfst, hrec]
    simp only [List.map_cons, List.flatten_cons, dedupSeen_append,
      List.append_assoc]

theorem collect_slugs_spec (env : Env) (sid : Nat) (s : St)
    (contents : Nat → String)
    (hf : ∀ p, env.fetchResult (table_page_url sid p) = some (contents p)) :
    collect_slugs env sid s = Except.ok (collectedSlugs contents,
      { fs := s.fs,
        events := s.events ++
          crawlTrace sid (extract_last_page (contents 0) 0) }) := by
  have h0 := hf 0
  have hseen : ∀ x,
      x ∈ (addSlugs (extract_material_slugs (contents 0)) [] []).2 ↔
      x ∈ extract_material_slugs (contents 0) := by
    intro x; rw [addSlugs_snd_mem]; simp
  obtain ⟨seen2, hrec⟩ := crawl_loop_spec env sid contents
    (List.range' 1 (extract_last_page (contents 0) 0))
    { fs := s.fs, events := s.events ++ [Ev.fetchUrl (table_page_url sid 0)] }
    (addSlugs (extract_material_slugs (contents 0)) [] []).1
    (addSlugs (extract_material_slugs (contents 0)) [] []).2
    (extract_material_slugs (contents 0))
    hseen (fun p _ => hf p)
  simp only [collect_slugs, fetch, h0]
  rw [hrec]
  simp only [addSlugs_fst, List.nil_append, collectedSlugs, crawlTrace,
    range_succ_head, List.map_cons, List.flatten_cons, dedupSeen_append,
    List.append_nil, List.append_assoc, List.cons_append, List.singleton_append]

theorem crawlTrace_mem (sid : Nat) (n : Nat) :
    ∀ e, e ∈ crawlTrace sid n →
      (∃ p, e = Ev.fetchUrl (table_page_url sid p)) ∨ e = Ev.sleep := by
  intro e he
  rcases List.mem_cons.mp he with rfl | he
  · exact Or.inl ⟨0, rfl⟩
  · rw [List.mem_flatten] at he
    obtain ⟨l, hl, hel⟩ := he
    rw [List.mem_map] at hl
    obtain ⟨p, _, rfl⟩ := hl
    rcases List.mem_cons.mp hel with rfl | hel
    · exact Or.inl ⟨p, rfl⟩
    · rcases List.mem_cons.mp hel with rfl | hel
      · exact Or.inr rfl
      · cases hel

theorem crawl_loop_ok_events (env : Env) (sid : Nat) :
    ∀ pl s slugs seen slugs2 seen2 s2,
      crawl_loop env sid pl s slugs seen = Except.ok (slugs2, seen2, s2) →
      s2.fs = s.fs ∧ ∃ extra, s2.events = s.events ++ extra ∧
        ∀ e, e ∈ extra →
          (∃ p, p ∈ pl ∧ e = Ev.fetchUrl (table_page_url sid p)) ∨
          e = Ev.sleep := by
  intro pl
  induction pl with
  | nil =>
    intro s slugs seen slugs2 seen2 s2 h
    cases h
    exact ⟨rfl, [], by simp⟩
  | cons page rest ih =>
    intro s slugs seen slugs2 seen2 s2 h
    simp only [crawl_loop] at h
    cases hfr : env.fetchResult (table_page_url sid page) with
    | none =>
      simp only [fetch, hfr] at h
      cases h
    | some html =>
      simp only [fetch, hfr] at h
      obtain ⟨hfs, extra, hev, hchar⟩ := ih _ _ _ _ _ _ h
      refine ⟨hfs, [Ev.fetchUrl (table_page_url sid page), Ev.sleep] ++ extra, ?_, ?_⟩
      · rw [hev]
        simp [sleepPause, List.append_assoc]
      · intro e he
        rcases List.mem_append.mp he with he | he
        · rcases List.mem_cons.mp he with rfl | he
          · exact Or.inl ⟨page, List.mem_cons_self _ _, rfl⟩
          · rcases List.mem_cons.mp he with rfl | he
            · exact Or.inr rfl
            · cases he
        · rcases hchar e he with ⟨p, hp, rfl⟩ | rfl
          · exact Or.inl ⟨p, List.mem_cons_of_mem _ hp, rfl⟩
          · exact Or.inr rfl

theorem crawl_loop_error_events (env : Env) (sid : Nat) :
    ∀ pl s slugs seen u s2,
      crawl_loop env sid pl s slugs seen = Except.error (u, s2) →
      s2.fs = s.fs ∧ ∃ extra, s2.events = s.events ++ extra ∧
        ∀ e, e ∈ extra →
          (∃ p, p ∈ pl ∧ e = Ev.fetchUrl (table_page_url sid p)) ∨
          e = Ev.sleep := by
  intro pl
  induction pl with
  | nil => intro s slugs seen u s2 h; cases h
  | cons page rest ih =>
    intro s slugs seen u s2 h
    simp only [crawl_loop] at h
    cases hfr : env.fetchResult (table_page_url sid page) with
    | none =>
      simp only [fetch, hfr] at h
      cases h
      refine ⟨rfl, [Ev.fetchUrl (table_page_url sid page)], rfl, ?_⟩
      intro e he
      simp only [List.mem_singleton] at he
      subst he
      exact Or.inl ⟨page, List.mem_cons_self _ _, rfl⟩
    | some html =>
      simp only [fetch, hfr] at h
      obtain ⟨hfs, extra, hev, hchar⟩ := ih _ _ _ _ _ h
      refine ⟨hfs, [Ev.fetchUrl (table_page_url sid page), Ev.sleep] ++ extra, ?_, ?_⟩
      · rw [hev]
        simp [sleepPause, List.append_assoc]
      · intro e he
        rcases List.mem_append.mp he with he | he
        · rcases List.mem_cons.mp he with rfl | he
          · exact Or.inl ⟨page, List.mem_cons_self _ _, rfl⟩
          · rcases List.mem_cons.mp he with rfl | he
            · exact Or.inr rfl
            · cases he
        · rcases hchar e he with ⟨p, hp, rfl⟩ | rfl
          · exact Or.inl ⟨p, List.mem_cons_of_mem _ hp, rfl⟩
          · exact Or.inr rfl

theorem collect_slugs_ok_events (env : Env) (sid : Nat) (s : St)
    (slugs : List String) (s2 : St)
    (h : collect_slugs env sid s = Except.ok (slugs, s2)) :
    s2.fs = s.fs ∧ ∃ extra, s2.events = s.events ++ extra ∧
      ∀ e, e ∈ extra →
        (∃ p, e = Ev.fetchUrl (table_page_url sid p)) ∨ e = Ev.sleep := by
  simp only [collect_slugs] at h
  cases hfr : env.fetchResult (table_page_url sid 0) with
  | none =>
    simp only [fetch, hfr] at h
    cases h
  | some html =>
    simp only [fetch, hfr] at h
    cases hcl : crawl_loop env sid
        (List.range' 1 (extract_last_page html 0))
        { fs := s.fs, events := s.events ++ [Ev.fetchUrl (table_page_url sid 0)] }
        (addSlugs (extract_material_slugs html) [] []).1
        (addSlugs (extract_material_slugs html) [] []).2 with
    | error e => rw [hcl] at h; cases h
    | ok r =>
      rw [hcl] at h
      rcases r with ⟨slugs1, seen1, s1⟩
      cases h
      obtain ⟨hfs, extra, hev, hchar⟩ :=
        crawl_loop_ok_events env sid _ _ _ _ _ _ _ hcl
      refine ⟨hfs, Ev.fetchUrl (table_page_url sid 0) :: extra, ?_, ?_⟩
      · rw [hev]; simp
      · intro e he
        rcases List.mem_cons.mp he with rfl | he
        · exact Or.inl ⟨0, rfl⟩
        · rcases hchar e he with ⟨p, _, rfl⟩ | rfl
          · exact Or.inl ⟨p, rfl⟩
          · exact Or.inr rfl

theorem collect_slugs_error_events (env : Env) (sid : Nat) (s : St)
    (u : String) (s2 : St)
    (h : collect_slugs env sid s = Except.error (u, s2)) :
    s2.fs = s.fs ∧ ∃ extra, s2.events = s.events ++ extra ∧
      ∀ e, e ∈ extra →
        (∃ p, e = Ev.fetchUrl (table_page_url sid p)) ∨ e = Ev.sleep := by
  simp only [collect_slugs] at h
  cases hfr : env.fetchResult (table_page_url sid 0) with
  | none =>
    simp only [fetch, hfr] at h
    cases h
    refine ⟨rfl, [Ev.fetchUrl (table_page_url sid 0)], rfl, ?_⟩
    intro e he
    simp only [List.mem_singleton] at he
    subst he
    exact Or.inl ⟨0, rfl⟩
  | some html =>
    simp only [fetch, hfr] at h
    cases hcl : crawl_loop env sid
        (List.range' 1 (extract_last_page html 0))
        { fs := s.fs, events := s.events ++ [Ev.fetchUrl (table_page_url sid 0)] }
        (addSlugs (extract_material_slugs html) [] []).1
        (addSlugs (extract_material_slugs html) [] []).2 with
    | error e =>
      rw [hcl] at h
      cases h
      obtain ⟨hfs, extra, hev, hchar⟩ :=
        crawl_loop_error_events env sid _ _ _ _ _ _ hcl
      refine ⟨hfs, Ev.fetchUrl (table_page_url sid 0) :: extra, ?_, ?_⟩
      · rw [hev]; simp
      · intro e2 he
        rcases List.mem_cons.mp he with rfl | he
        · exact Or.inl ⟨0, rfl⟩
        · rcases hchar e2 he with ⟨p, _, rfl⟩ | rfl
          · exact Or.inl ⟨p, rfl⟩
          · exact Or.inr rfl
    | ok r => rw [hcl] at h; rcases r with ⟨slugs1, seen1, s1⟩; cases h

theorem download_material_ok_inv (env : Env) (s : St) (slug : String)
    (entry : List (String × String)) (s2 : St)
    (h : download_material env s slug = Except.ok (entry, s2)) :
    entry = material_manifest_entry slug ∧
    (∀ x, x ∈ s.fs → x ∈ s2.fs) ∧
    material_file_path slug "json" ∈ s2.fs ∧
    material_file_path slug "cif" ∈ s2.fs ∧
    ∃ extra, s2.events = s.events ++ extra ∧
      ∀ e, e ∈ extra →
        e = Ev.fetchUrl (material_download_url slug "json") ∨
        e = Ev.fetchUrl (material_download_url slug "cif") ∨
        e = Ev.write (material_file_path slug "json") ∨
        e = Ev.write (material_file_path slug "cif") ∨
        e = Ev.sleep := by
  simp only [download_material] at h
  obtain ⟨hentry, hmono, hfiles, extra, hev, hchar⟩ :=
    download_kinds_ok_inv env slug DOWNLOAD_TYPES s _ entry s2 h
  refine ⟨?_, hmono, ?_, ?_, extra, hev, ?_⟩
  · rw [hentry]; rfl
  · exact hfiles ("json", "json") (by simp [DOWNLOAD_TYPES])
  · exact hfiles ("cif", "cif") (by simp [DOWNLOAD_TYPES])
  · intro e he
    rcases hchar e he with ⟨ks, hks, hor⟩ | rfl
    · simp only [DOWNLOAD_TYPES, List.mem_cons, List.not_mem_nil, or_false] at hks
      rcases hks with rfl | rfl
      · rcases hor with rfl | rfl
        · exact Or.inl rfl
        · exact Or.inr (Or.inr (Or.inl rfl))
      · rcases hor with rfl | rfl
        · exact Or.inr (Or.inl rfl)
        · exact Or.inr (Or.inr (Or.inr (Or.inl rfl)))
    · exact Or.inr (Or.inr (Or.inr (Or.inr rfl)))

theorem download_material_error_inv (env : Env) (s : St) (slug : String)
    (u : String) (s2 : St)
    (h : download_material env s slug = Except.error (u, s2)) :
    (u = material_download_url slug "json" ∨
     u = material_download_url slug "cif") ∧
    (∀ x, x ∈ s.fs → x ∈ s2.fs) ∧
    ∃ extra, s2.events = s.events ++ extra ∧
      ∀ e, e ∈ extra →
        e = Ev.fetchUrl (material_download_url slug "json") ∨
        e = Ev.fetchUrl (material_download_url slug "cif") ∨
        e = Ev.write (material_file_path slug "json") ∨
        e = Ev.write (material_file_path slug "cif") ∨
        e = Ev.sleep := by
  simp only [download_material] at h
  obtain ⟨⟨ks, hks, hu⟩, hmono, extra, hev, hchar⟩ :=
    download_kinds_error_inv env slug DOWNLOAD_TYPES s _ u s2 h
  refine ⟨?_, hmono, extra, hev, ?_⟩
  · simp only [DOWNLOAD_TYPES, List.mem_cons, List.not_mem_nil, or_false] at hks
    rcases hks with rfl | rfl
    · exact Or.inl hu
    · exact Or.inr hu
  · intro e he
    rcases hchar e he with ⟨ks2, hks2, hor⟩ | rfl
    · simp only [DOWNLOAD_TYPES, List.mem_cons, List.not_mem_nil, or_false] at hks2
      rcases hks2 with rfl | rfl
      · rcases hor with rfl | rfl
        · exact Or.inl rfl
        · exact Or.inr (Or.inr (Or.inl rfl))
      · rcases hor with rfl | rfl
        · exact Or.inr (Or.inl rfl)
        · exact Or.inr (Or.inr (Or.inr (Or.inl rfl)))
    · exact Or.inr (Or.inr (Or.inr (Or.inr rfl)))

theorem download_loop_ok_inv (env : Env) :
    ∀ L s manifest m2 s2,
      download_loop env L s manifest = Except.ok (m2, s2) →
      m2 = manifest ++ L.map material_manifest_entry ∧
      (∀ x, x ∈ s.fs → x ∈ s2.fs) ∧
      ∃ extra, s2.events = s.events ++ extra ∧
        ∀ e, e ∈ extra →
          (∃ slug, slug ∈ L ∧
            (e = Ev.fetchUrl (material_download_url slug "json") ∨
             e = Ev.fetchUrl (material_download_url slug "cif") ∨
             e = Ev.write (material_file_path slug "json") ∨
             e = Ev.write (material_file_path slug "cif"))) ∨
          e = Ev.sleep := by
  intro L
  induction L with
  | nil =>
    intro s manifest m2 s2 h
    cases h
    exact ⟨by simp, fun x hx => hx, [], by simp⟩
  | cons slug rest ih =>
    intro s manifest m2 s2 h
    simp only [download_loop] at h
    cases hdm : download_material env s slug with
    | error e => rw [hdm] at h; cases h
    | ok r =>
      rw [hdm] at h
      rcases r with ⟨entry, s1⟩
      obtain ⟨hentry, hmono1, hj, hc, extra1, hev1, hchar1⟩ :=
        download_material_ok_inv env s slug entry s1 hdm
      obtain ⟨hm2, hmono2, extra2, hev2, hchar2⟩ := ih s1 _ m2 s2 h
      subst hentry
      refine ⟨by rw [hm2]; simp, fun x hx => hmono2 x (hmono1 x hx),
        extra1 ++ extra2, by rw [hev2, hev1, List.append_assoc], ?_⟩
      intro e he
      rcases List.mem_append.mp he with he | he
      · rcases hchar1 e he with rfl | rfl | rfl | rfl | rfl
        · exact Or.inl ⟨slug, List.mem_cons_self _ _, Or.inl rfl⟩
        · exact Or.inl ⟨slug, List.mem_cons_self _ _, Or.inr (Or.inl rfl)⟩
        · exact Or.inl ⟨slug, List.mem_cons_self _ _, Or.inr (Or.inr (Or.inl rfl))⟩
        · exact Or.inl ⟨slug, List.mem_cons_self _ _, Or.inr (Or.inr (Or.inr rfl))⟩
        · exact Or.inr rfl
      · rcases hchar2 e he with ⟨slug2, hs2, hor⟩ | rfl
        · exact Or.inl ⟨slug2, List.mem_cons_of_mem _ hs2, hor⟩
        · exact Or.inr rfl

theorem download_loop_error_inv (env : Env) :
    ∀ L s manifest u s2,
      download_loop env L s manifest = Except.error (u, s2) →
      (∀ x, x ∈ s.fs → x ∈ s2.fs) ∧
      ∃ extra, s2.events = s.events ++ extra ∧
        ∀ e, e ∈ extra →
          (∃ slug, slug ∈ L ∧
            (e = Ev.fetchUrl (material_download_url slug "json") ∨
             e = Ev.fetchUrl (material_download_url slug "cif") ∨
             e = Ev.write (material_file_path slug "json") ∨
             e = Ev.write (material_file_path slug "cif"))) ∨
          e = Ev.sleep := by
  intro L
  induction L with
  | nil => intro s manifest u s2 h; cases h
  | cons slug rest ih =>
    intro s manifest u s2 h
    simp only [download_loop] at h
    cases hdm : download_material env s slug with
    | error e =>
      rw [hdm] at h
      cases h
      obtain ⟨hu, hmono, extra, hev, hchar⟩ :=
        download_material_error_inv env s slug u s2 hdm
      refine ⟨hmono, extra, hev, ?_⟩
      intro e2 he
      rcases hchar e2 he with rfl | rfl | rfl | rfl | rfl
      · exact Or.inl ⟨slug, List.mem_cons_self _ _, Or.inl rfl⟩
      · exact Or.inl ⟨slug, List.mem_cons_self _ _, Or.inr (Or.inl rfl)⟩
      · exact Or.inl ⟨slug, List.mem_cons_self _ _, Or.inr (Or.inr (Or.inl rfl))⟩
      · exact Or.inl ⟨slug, List.mem_cons_self _ _, Or.inr (Or.inr (Or.inr rfl))⟩
      · exact Or.inr rfl
    | ok r =>
      rw [hdm] at h
      rcases r with ⟨entry, s1⟩
      obtain ⟨hentry, hmono1, hj, hc, extra1, hev1, hchar1⟩ :=
        download_material_ok_inv env s slug entry s1 hdm
      obtain ⟨hmono2, extra2, hev2, hchar2⟩ := ih s1 _ u s2 h
      refine ⟨fun x hx => hmono2 x (hmono1 x hx),
        extra1 ++ extra2, by rw [hev2, hev1, List.append_assoc], ?_⟩
      intro e he
      rcases List.mem_append.mp he with he | he
      · rcases hchar1 e he with rfl | rfl | rfl | rfl | rfl
        · exact Or.inl ⟨slug, List.mem_cons_self _ _, Or.inl rfl⟩
        · exact Or.inl ⟨slug, List.mem_cons_self _ _, Or.inr (Or.inl rfl)⟩
        · exact Or.inl ⟨slug, List.mem_cons_self _ _, Or.inr (Or.inr (Or.inl rfl))⟩
        · exact Or.inl ⟨slug, List.mem_cons_self _ _, Or.inr (Or.inr (Or.inr rfl))⟩
        · exact Or.inr rfl
      · rcases hchar2 e he with ⟨slug2, hs2, hor⟩ | rfl
        · exact Or.inl ⟨slug2, List.mem_cons_of_mem _ hs2, hor⟩
        · exact Or.inr rfl

theorem countSleeps_append (a b : List Ev) :
    countSleeps (a ++ b) = countSleeps a + countSleeps b := by
  induction a with
  | nil => simp [countSleeps]
  | cons e rest ih =>
    cases e
    all_goals simp [countSleeps, ih]
    all_goals omega

theorem countSleeps_fetch (u : String) (l : List Ev) :
    countSleeps (Ev.fetchUrl u :: l) = countSleeps l := rfl

theorem countSleeps_sleep (l : List Ev) :
    countSleeps (Ev.sleep :: l) = countSleeps l + 1 := rfl

theorem crawlTrace_sleep_count (sid n : Nat) :
    countSleeps (crawlTrace sid n) = n := by
  have hb : ∀ pl : List Nat,
      countSleeps ((pl.map fun p =>
        [Ev.fetchUrl (table_page_url sid p), Ev.sleep]).flatten) = pl.length := by
    intro pl
    induction pl with
    | nil => rfl
    | cons p rest ih =>
      simp only [List.map_cons, List.flatten_cons, List.cons_append,
        List.nil_append, countSleeps_fetch, countSleeps_sleep, ih,
        List.length_cons]
  simp only [crawlTrace, countSleeps_fetch, hb, List.length_range']

theorem collect_slugs_first_seen_union (env : Env) (sid : Nat) (s : St)
    (contents : Nat → String)
    (hf : ∀ p, env.fetchResult (table_page_url sid p) = some (contents p)) :
    ∃ slugs s2, collect_slugs env sid s = Except.ok (slugs, s2) ∧
      slugs = dedupSeen (pagesCat contents) [] ∧
      slugs.Nodup ∧
      slugs.Sublist (pagesCat contents) ∧
      (∀ x, x ∈ slugs ↔ x ∈ pagesCat contents) := by
  refine ⟨collectedSlugs contents, _,
    collect_slugs_spec env sid s contents hf, rfl, ?_, ?_, ?_⟩
  · exact dedupSeen_nodup _ _
  · exact dedupSeen_sublist _ _
  · intro x
    have he : collectedSlugs contents = dedupSeen (pagesCat contents) [] := rfl
    rw [he, dedupSeen_mem]
    simp

theorem collect_slugs_first_seen_union_witness :
    ∃ slugs s2, collect_slugs envConst 9 { fs := [], events := [] } =
        Except.ok (slugs, s2) ∧
      slugs = dedupSeen (pagesCat fun _ => cPage) [] ∧
      slugs.Nodup ∧
      slugs.Sublist (pagesCat fun _ => cPage) ∧
      (∀ x, x ∈ slugs ↔ x ∈ pagesCat fun _ => cPage) :=
  collect_slugs_first_seen_union envConst 9 { fs := [], events := [] }
    (fun _ => cPage) (fun _ => rfl)

theorem extract_material_slugs_dedup (html : String) :
    extract_material_slugs html = dedupSeen (rawSlugMatches html.toList) [] ∧
    (extract_material_slugs html).Nodup ∧
    (extract_material_slugs html).Sublist (rawSlugMatches html.toList) ∧
    (∀ x, x ∈ extract_material_slugs html ↔ x ∈ rawSlugMatches html.toList) := by
  have he : extract_material_slugs html =
      dedupSeen (rawSlugMatches html.toList) [] := by
    simp only [extract_material_slugs, addSlugs_fst, List.nil_append]
  refine ⟨he, ?_, ?_, ?_⟩
  · rw [he]; exact dedupSeen_nodup _ _
  · rw [he]; exact dedupSeen_sublist _ _
  · intro x; rw [he, dedupSeen_mem]; simp

theorem extract_last_page_eq (html : String) (fallback : Nat) :
    extract_last_page html fallback =
      match rawPageMatches html.toList with
      | [] => fallback
      | p :: ps => maxOfList p ps := rfl

theorem extract_last_page_max (html : String) :
    (rawPageMatches html.toList = [] ∧ extract_last_page html 0 = 0) ∨
    (extract_last_page html 0 ∈ rawPageMatches html.toList ∧
     ∀ m, m ∈ rawPageMatches html.toList → m ≤ extract_last_page html 0) := by
  cases hm : rawPageMatches html.toList with
  | nil =>
    refine Or.inl ⟨rfl, ?_⟩
    rw [extract_last_page_eq, hm]
  | cons p ps =>
    have hv : extract_last_page html 0 = maxOfList p ps := by
      rw [extract_last_page_eq, hm]
    refine Or.inr ⟨?_, ?_⟩
    · rw [hv]
      exact maxOfList_mem ps p
    · intro m hm2
      rw [hv]
      exact le_maxOfList ps p m hm2

theorem download_material_skips_existing (env : Env) (s : St) (slug : String)
    (h1 : material_file_path slug "json" ∈ s.fs)
    (h2 : material_file_path slug "cif" ∈ s.fs) :
    download_material env s slug =
      Except.ok (material_manifest_entry slug, s) := by
  have hd1 := download_file_skip env s (material_download_url slug "json")
    (material_file_path slug "json") h1
  have hd2 := download_file_skip env s (material_download_url slug "cif")
    (material_file_path slug "cif") h2
  simp only [download_material, DOWNLOAD_TYPES, download_kinds, hd1, hd2,
    material_manifest_entry, List.cons_append, List.nil_append]

theorem download_material_skips_existing_witness :
    download_material envDown { fs := fsBoth, events := [] } "1A" =
      Except.ok (material_manifest_entry "1A", { fs := fsBoth, events := [] }) :=
  download_material_skips_existing envDown { fs := fsBoth, events := [] } "1A"
    (by simp [fsBoth]) (by simp [fsBoth])

theorem download_material_fresh_two_writes (env : Env) (s : St) (slug : String)
    (b1 b2 : String)
    (h1 : material_file_path slug "json" ∉ s.fs)
    (h2 : material_file_path slug "cif" ∉ s.fs)
    (h3 : env.fetchResult (material_download_url slug "json") = some b1)
    (h4 : env.fetchResult (material_download_url slug "cif") = some b2) :
    download_material env s slug = Except.ok (material_manifest_entry slug,
      { fs := material_file_path slug "cif" ::
              material_file_path slug "json" :: s.fs,
        events := s.events ++
          [Ev.fetchUrl (material_download_url slug "json"),
           Ev.write (material_file_path slug "json"), Ev.sleep,
           Ev.fetchUrl (material_download_url slug "cif"),
           Ev.write (material_file_path slug "cif"), Ev.sleep] }) ∧
    writesOf
      [Ev.fetchUrl (material_download_url slug "json"),
       Ev.write (material_file_path slug "json"), Ev.sleep,
       Ev.fetchUrl (material_download_url slug "cif"),
       Ev.write (material_file_path slug "cif"), Ev.sleep] =
      [material_file_path slug "json", material_file_path slug "cif"] := by
  constructor
  · have hd1 := download_file_fresh env s (material_download_url slug "json")
      (material_file_path slug "json") b1 h1 h3
    have h2b : material_file_path slug "cif" ∉
        (material_file_path slug "json" :: s.fs) := by
      intro hc
      rcases List.mem_cons.mp hc with hc | hc
      · exact material_file_path_json_ne_cif slug hc.symm
      · exact h2 hc
    have hd2 := download_file_fresh env
      { fs := material_file_path slug "json" :: s.fs,
        events := s.events ++
          [Ev.fetchUrl (material_download_url slug "json"),
           Ev.write (material_file_path slug "json"), Ev.sleep] }
      (material_download_url slug "cif")
      (material_file_path slug "cif") b2 h2b h4
    simp only [download_material, DOWNLOAD_TYPES, download_kinds, hd1, hd2,
      material_manifest_entry, List.cons_append, List.nil_append,
      List.append_assoc]
  · rfl

theorem download_material_fresh_two_writes_witness :
    download_material envConst { fs := [], events := [] } "1A" =
      Except.ok (material_manifest_entry "1A",
      { fs := material_file_path "1A" "cif" ::
              material_file_path "1A" "json" :: [],
        events := [] ++
          [Ev.fetchUrl (material_download_url "1A" "json"),
           Ev.write (material_file_path "1A" "json"), Ev.sleep,
           Ev.fetchUrl (material_download_url "1A" "cif"),
           Ev.write (material_file_path "1A" "cif"), Ev.sleep] }) ∧
    writesOf
      [Ev.fetchUrl (material_download_url "1A" "json"),
       Ev.write (material_file_path "1A" "json"), Ev.sleep,
       Ev.fetchUrl (material_download_url "1A" "cif"),
       Ev.write (material_file_path "1A" "cif"), Ev.sleep] =
      [material_file_path "1A" "json", material_file_path "1A" "cif"] :=
  download_material_fresh_two_writes envConst { fs := [], events := [] } "1A"
    cPage cPage (by simp) (by simp) rfl rfl

theorem collect_slugs_delay_counterexample :
    extract_last_page cPage 0 = 1 ∧
    collect_slugs envConst 9 { fs := [], events := [] } =
      Except.ok (["1A", "2B"],
        { fs := [],
          events := [Ev.fetchUrl (table_page_url 9 0),
                     Ev.fetchUrl (table_page_url 9 1), Ev.sleep] }) ∧
    countSleeps [Ev.fetchUrl (table_page_url 9 0),
                 Ev.fetchUrl (table_page_url 9 1), Ev.sleep] = 1 ∧
    Nat.max (extract_last_page cPage 0 - 1) 0 = 0 ∧
    (1 : Nat) ≠ Nat.max (extract_last_page cPage 0 - 1) 0 := by
  refine ⟨rfl, ?_, rfl, rfl, by decide⟩
  rfl

theorem collect_slugs_delay_after_every_page (env : Env) (sid : Nat) (s : St)
    (contents : Nat → String)
    (hf : ∀ p, env.fetchResult (table_page_url sid p) = some (contents p)) :
    ∃ slugs, collect_slugs env sid s = Except.ok (slugs,
      { fs := s.fs,
        events := s.events ++
          crawlTrace sid (extract_last_page (contents 0) 0) }) ∧
      countSleeps (crawlTrace sid (extract_last_page (contents 0) 0)) =
        extract_last_page (contents 0) 0 :=
  ⟨collectedSlugs contents, collect_slugs_spec env sid s contents hf,
   crawlTrace_sleep_count sid _⟩

theorem collect_slugs_delay_after_every_page_witness :
    ∃ slugs, collect_slugs envConst 9 { fs := [], events := [] } =
      Except.ok (slugs,
      { fs := ([] : List String),
        events := [] ++ crawlTrace 9 (extract_last_page cPage 0) }) ∧
      countSleeps (crawlTrace 9 (extract_last_page cPage 0)) =
        extract_last_page cPage 0 :=
  collect_slugs_delay_after_every_page envConst 9 { fs := [], events := [] }
    (fun _ => cPage) (fun _ => rfl)

theorem download_material_record_files_exist (env : Env) (s : St)
    (slug : String) (entry : List (String × String)) (s2 : St)
    (h : download_material env s slug = Except.ok (entry, s2)) :
    entry = material_manifest_entry slug ∧
    material_file_path slug "json" ∈ s2.fs ∧
    material_file_path slug "cif" ∈ s2.fs := by
  obtain ⟨he, _, hj, hc, _⟩ := download_material_ok_inv env s slug entry s2 h
  exact ⟨he, hj, hc⟩

theorem download_material_record_files_exist_witness :
    material_manifest_entry "1A" = material_manifest_entry "1A" ∧
    material_file_path "1A" "json" ∈
      (St.mk fsBoth []).fs ∧
    material_file_path "1A" "cif" ∈
      (St.mk fsBoth []).fs :=
  download_material_record_files_exist envDown { fs := fsBoth, events := [] }
    "1A" (material_manifest_entry "1A") { fs := fsBoth, events := [] } rfl

theorem download_material_json_then_cif (env : Env) (s : St) (slug : String)
    (hjson : material_file_path slug "json" ∈ s.fs ∨
      ∃ b, env.fetchResult (material_download_url slug "json") = some b)
    (h2 : material_file_path slug "cif" ∉ s.fs)
    (h4 : env.fetchResult (material_download_url slug "cif") = none) :
    DOWNLOAD_TYPES.map Prod.fst = ["json", "cif"] ∧
    ∃ s2, download_material env s slug =
        Except.error (material_download_url slug "cif", s2) ∧
      material_file_path slug "json" ∈ s2.fs := by
  refine ⟨rfl, ?_⟩
  by_cases hjfs : material_file_path slug "json" ∈ s.fs
  · have hd1 := download_file_skip env s (material_download_url slug "json")
      (material_file_path slug "json") hjfs
    have hd2 := download_file_fail env s (material_download_url slug "cif")
      (material_file_path slug "cif") h2 h4
    refine ⟨{ fs := s.fs,
              events := s.events ++
                [Ev.fetchUrl (material_download_url slug "cif")] }, ?_, hjfs⟩
    simp only [download_material, DOWNLOAD_TYPES, download_kinds, hd1, hd2]
  · obtain ⟨b, hj⟩ : ∃ b,
        env.fetchResult (material_download_url slug "json") = some b := by
      rcases hjson with hj | hb
      · exact absurd hj hjfs
      · exact hb
    have hd1 := download_file_fresh env s (material_download_url slug "json")
      (material_file_path slug "json") b hjfs hj
    have h2b : material_file_path slug "cif" ∉
        (material_file_path slug "json" :: s.fs) := by
      intro hc
      rcases List.mem_cons.mp hc with hc | hc
      · exact material_file_path_json_ne_cif slug hc.symm
      · exact h2 hc
    have hd2 := download_file_fail env
      { fs := material_file_path slug "json" :: s.fs,
        events := s.events ++
          [Ev.fetchUrl (material_download_url slug "json"),
           Ev.write (material_file_path slug "json"), Ev.sleep] }
      (material_download_url slug "cif")
      (material_file_path slug "cif") h2b h4
    refine ⟨{ fs := material_file_path slug "json" :: s.fs,
              events := (s.events ++
                [Ev.fetchUrl (material_download_url slug "json"),
                 Ev.write (material_file_path slug "json"), Ev.sleep]) ++
                [Ev.fetchUrl (material_download_url slug "cif")] }, ?_,
      List.mem_cons_self _ _⟩
    simp only [download_material, DOWNLOAD_TYPES, download_kinds, hd1, hd2]

theorem download_material_json_then_cif_witness :
    DOWNLOAD_TYPES.map Prod.fst = ["json", "cif"] ∧
    ∃ s2, download_material envJsonOnly { fs := [], events := [] } "1A" =
        Except.error (material_download_url "1A" "cif", s2) ∧
      material_file_path "1A" "json" ∈ s2.fs :=
  download_material_json_then_cif envJsonOnly { fs := [], events := [] } "1A"
    (Or.inr ⟨"x", by decide⟩) (by simp) (by decide)

theorem main_run_abort_no_manifest (env : Env) (sid : Nat)
    (maxm : Option Nat) (fs0 : List String) (u : String) (s2 : St)
    (h : main_run env sid maxm fs0 = Except.error (u, s2)) :
    Ev.writeManifest ∉ s2.events := by
  simp only [main_run] at h
  split at h
  next e heq =>
    cases h
    obtain ⟨_, extra, hev, hchar⟩ :=
      collect_slugs_error_events env sid _ u s2 heq
    rw [hev]
    simp only [List.nil_append]
    intro hc
    rcases hchar _ hc with ⟨p, hp⟩ | hp
    · cases hp
    · cases hp
  next slugs s1 heq =>
    obtain ⟨_, extra1, hev1, hchar1⟩ :=
      collect_slugs_ok_events env sid _ slugs s1 heq
    have hnw1 : Ev.writeManifest ∉ s1.events := by
      rw [hev1]
      simp only [List.nil_append]
      intro hc
      rcases hchar1 _ hc with ⟨p, hp⟩ | hp
      · cases hp
      · cases hp
    split at h
    next e heq2 =>
      cases h
      obtain ⟨_, extra2, hev2, hchar2⟩ :=
        download_loop_error_inv env _ s1 [] u s2 heq2
      rw [hev2]
      intro hc
      rcases List.mem_append.mp hc with hc | hc
      · exact hnw1 hc
      · rcases hchar2 _ hc with ⟨slug, _, hor⟩ | hp
        · rcases hor with hp | hp | hp | hp
          · cases hp
          · cases hp
          · cases hp
          · cases hp
        · cases hp
    next m s3 heq2 => cases h

theorem main_run_abort_no_manifest_witness :
    Ev.writeManifest ∉
      (St.mk [] [Ev.fetchUrl (table_page_url 1 0)]).events :=
  main_run_abort_no_manifest envDown 1 none [] (table_page_url 1 0)
    (St.mk [] [Ev.fetchUrl (table_page_url 1 0)]) rfl

theorem main_run_max_materials (env : Env) (sid : Nat) (n : Nat)
    (fs0 : List String) (contents : Nat → String)
    (hf : ∀ p, env.fetchResult (table_page_url sid p) = some (contents p))
    (manifest : List (List (String × String))) (s2 : St)
    (h : main_run env sid (some n) fs0 = Except.ok (manifest, s2)) :
    manifest = ((collectedSlugs contents).take n).map material_manifest_entry ∧
    (∀ u, Ev.fetchUrl u ∈ s2.events →
      (∃ p, u = table_page_url sid p) ∨
      ∃ slug, slug ∈ (collectedSlugs contents).take n ∧
        (u = material_download_url slug "json" ∨
         u = material_download_url slug "cif")) := by
  have hcs := collect_slugs_spec env sid { fs := fs0, events := [] } contents hf
  simp only [main_run, hcs] at h
  split at h
  next e heq => cases h
  next m s3 heq =>
    cases h
    obtain ⟨hm, _, extra, hev, hchar⟩ := download_loop_ok_inv env _ _ _ _ _ heq
    constructor
    · rw [hm]
      simp
    · intro u hu
      have hu2 : Ev.fetchUrl u ∈ s3.events ++ [Ev.writeManifest] := hu
      have hev2 : s3.events =
          crawlTrace sid (extract_last_page (contents 0) 0) ++ extra := hev
      rcases List.mem_append.mp hu2 with hu3 | hu3
      · rw [hev2] at hu3
        rcases List.mem_append.mp hu3 with hu4 | hu4
        · rcases crawlTrace_mem sid _ _ hu4 with ⟨p, hp⟩ | hp
          · injection hp with hp
            exact Or.inl ⟨p, hp⟩
          · cases hp
        · rcases hchar _ hu4 with ⟨slug, hslug, hor⟩ | hp
          · rcases hor with hp | hp | hp | hp
            · injection hp with hp
              exact Or.inr ⟨slug, hslug, Or.inl hp⟩
            · injection hp with hp
              exact Or.inr ⟨slug, hslug, Or.inr hp⟩
            · cases hp
            · cases hp
          · cases hp
      · cases List.mem_singleton.mp hu3

theorem main_run_max_materials_witness :
    [material_manifest_entry "1A"] =
      ((collectedSlugs fun _ => cSmall).take 1).map material_manifest_entry ∧
    (∀ u, Ev.fetchUrl u ∈ (St.mk
        [material_file_path "1A" "cif", material_file_path "1A" "json"]
        [Ev.fetchUrl (table_page_url 9 0),
         Ev.fetchUrl (material_download_url "1A" "json"),
         Ev.write (material_file_path "1A" "json"), Ev.sleep,
         Ev.fetchUrl (material_download_url "1A" "cif"),
         Ev.write (material_file_path "1A" "cif"), Ev.sleep,
         Ev.writeManifest]).events →
      (∃ p, u = table_page_url 9 p) ∨
      ∃ slug, slug ∈ (collectedSlugs fun _ => cSmall).take 1 ∧
        (u = material_download_url slug "json" ∨
         u = material_download_url slug "cif")) :=
  main_run_max_materials envSmall 9 1 [] (fun _ => cSmall) (fun _ => rfl)
    [material_manifest_entry "1A"]
    (St.mk [material_file_path "1A" "cif", material_file_path "1A" "json"]
        [Ev.fetchUrl (table_page_url 9 0),
         Ev.fetchUrl (material_download_url "1A" "json"),
         Ev.write (material_file_path "1A" "json"), Ev.sleep,
         Ev.fetchUrl (material_download_url "1A" "cif"),
         Ev.write (material_file_path "1A" "cif"), Ev.sleep,
         Ev.writeManifest]) rfl
